import Mathlib

/-!
Verification of the motd message-file engine: a shallow embedding of the
entry seeker (`EntrySeeker` in `src/main.rs`) and the message tokenizer
(`EntryParser` in `src/parse.rs`), together with proofs of the specified
properties.

Modelling conventions:
* A byte source is a `List Nat` of byte values (each < 256 for real inputs;
  the scan logic only compares against concrete byte values).
* `EntrySeeker::new` reads through a `BufReader` into a 1024-byte buffer;
  for a regular file every `read` call returns 1024 bytes until the tail.
  This chunking is embedded faithfully (`readChunks`), because the `escape`
  local variable in the Rust code is declared inside the read loop and
  therefore resets at every chunk boundary.
* Strings on the parser side are `List Char`; `String::push` becomes
  appending a singleton.
* Fallible operations return `Option` / a result type; the `panic!` in
  `EntryParser::process_char` is modelled as a distinct outcome
  (`PResult.panicked`), and the out-of-range `expect` in `get_entry` as
  `none`.  UTF-8 decoding is not modelled (entry text stays at byte level);
  all concrete inputs used here are ASCII, where decoding is the identity.
-/

/-- `u8::is_ascii_whitespace` from Rust: space, tab, newline, form feed,
carriage return (note: not vertical tab). Used by `EntrySeeker::new`. -/
def isAsciiWhitespaceByte (b : Nat) : Bool :=
  b = 32 || b = 9 || b = 10 || b = 12 || b = 13

/-- `char::is_whitespace` from Rust restricted to the ASCII range: the
Unicode `White_Space` code points below 128 are tab, LF, VT, FF, CR and
space. Used by `str::trim` in `get_entry`. -/
def isRustWhitespaceByte (b : Nat) : Bool :=
  b = 9 || b = 10 || b = 11 || b = 12 || b = 13 || b = 32

/-- `ENTRY_DELIMITER` in `src/main.rs`: the byte `b'%'`. -/
def ENTRY_DELIMITER : Nat := 37

/-- The record descriptor `SeekPos` from `src/main.rs`. -/
structure SeekPos where
  start_pos : Nat
  len : Nat
  line_number : Nat
deriving DecidableEq

/-- The mutable local state of the indexing scan in `EntrySeeker::new`
(`entries`, `entry_pos`, `entry_len`, `current_line`, `entry_line`).
The `escape` flag is deliberately not part of this record: in the Rust
code it is declared inside the read loop, so it is threaded separately
per chunk. -/
structure ScanState where
  entries : List SeekPos
  entry_pos : Nat
  entry_len : Nat
  current_line : Nat
  entry_line : Option Nat
deriving DecidableEq

/-- The `entry_line` update performed before the byte dispatch in
`EntrySeeker::new`: record the current line as the record's first
non-whitespace line when the marker is still unset and the byte is not
ASCII whitespace. -/
def elineUpd (st : ScanState) (b : Nat) : Option Nat :=
  if st.entry_line.isNone && !(isAsciiWhitespaceByte b) then some st.current_line
  else st.entry_line

/-- One iteration of the `for byte in buf` loop body in `EntrySeeker::new`:
given the current escape flag and scan state, consume one byte. -/
def scanByte (esc : Bool) (st : ScanState) (b : Nat) : Bool × ScanState :=
  let len := st.entry_len + 1
  let eline := elineUpd st b
  if b = 92 then
    (true, { st with entry_len := len, entry_line := eline })
  else if b = 10 then
    (false, { st with entry_len := len, entry_line := eline,
                      current_line := st.current_line + 1 })
  else if b = ENTRY_DELIMITER then
    if !esc then
      (false, { entries := st.entries ++
                  [⟨st.entry_pos, len, eline.getD st.current_line⟩],
                entry_pos := st.entry_pos + len,
                entry_len := 0,
                current_line := st.current_line,
                entry_line := none })
    else
      (false, { st with entry_len := len, entry_line := eline })
  else
    (false, { st with entry_len := len, entry_line := eline })

/-- Uncurried form of `scanByte` for folding. -/
def scanStep (p : Bool × ScanState) (b : Nat) : Bool × ScanState :=
  scanByte p.1 p.2 b

/-- Processing of one chunk returned by `reader.read`: the `escape` flag
starts out `false` for every chunk (`let mut escape = false;` inside the
read loop in `EntrySeeker::new`). -/
def scanChunk (st : ScanState) (chunk : List Nat) : ScanState :=
  (chunk.foldl scanStep (false, st)).2

/-- Initial scan state of `EntrySeeker::new`: no entries, offset 0,
length 0, line counter 1, no first-non-whitespace line yet. -/
def initScanState : ScanState := ⟨[], 0, 0, 1, none⟩

/-- The sequence of byte chunks produced by the read loop: `read` fills
the 1024-byte buffer completely on every call until the source is
exhausted (the behaviour of `BufReader` over a regular file). Structural
recursion on a fuel argument so that the kernel can evaluate it. -/
def readChunksAux : Nat → List Nat → List (List Nat)
  | 0, _ => []
  | _, [] => []
  | fuel + 1, b :: rest =>
      (b :: rest).take 1024 :: readChunksAux fuel ((b :: rest).drop 1024)

/-- All chunks read from a byte source. -/
def readChunks (l : List Nat) : List (List Nat) :=
  readChunksAux l.length l

/-- `EntrySeeker::new`: the record index built by the single forward scan
over the source, chunk by chunk. -/
def entrySeekerNew (src : List Nat) : List SeekPos :=
  ((readChunks src).foldl scanChunk initScanState).entries

/-- The `Entry` struct from `src/main.rs`; `msg` is kept at byte level. -/
structure Entry where
  msg : List Nat
  line_number : Nat
  entry_number : Nat
deriving DecidableEq

/-- `Entry::default()`. -/
def entryDefault : Entry := ⟨[], 0, 0⟩

/-- `str::trim` on a byte list holding ASCII text: drop whitespace from
both ends. -/
def rustTrim (l : List Nat) : List Nat :=
  ((l.dropWhile isRustWhitespaceByte).reverse.dropWhile isRustWhitespaceByte).reverse

/-- `EntrySeeker::get_entry`: on an empty index return the default entry;
otherwise look up the descriptor (`none` models the out-of-range
`expect`), read its span, chop off the trailing delimiter byte if the
text is non-empty, and trim whitespace. -/
def get_entry (src : List Nat) (index : Nat) : Option Entry :=
  let positions := entrySeekerNew src
  if positions.isEmpty then some entryDefault
  else
    match positions[index]? with
    | none => none
    | some sp =>
        let buf := (src.drop sp.start_pos).take sp.len
        let msg := if buf.length > 0 then buf.dropLast else buf
        some ⟨rustTrim msg, sp.line_number, index⟩

/-- Index of the first byte failing `isAsciiWhitespaceByte`, if any.
Auxiliary notion used to state line-numbering properties. -/
def firstNonWsIdx : List Nat → Option Nat
  | [] => none
  | b :: rest =>
      if isAsciiWhitespaceByte b then (firstNonWsIdx rest).map (· + 1)
      else some 0

/-- Specification-side definition (from the spec's words, for comparison
with the code): the 1-based line number of the first non-ASCII-whitespace
byte of the record span `[start, start+len)` of `src`.  The span includes
the trailing delimiter byte, which is itself not whitespace, so for a
record that is all whitespace before its delimiter this is the line
current at delimiter time, exactly the spec's fallback case. -/
def specLineNumber (src : List Nat) (start len : Nat) : Nat :=
  match firstNonWsIdx ((src.drop start).take len) with
  | some j => 1 + ((src.take (start + j)).count 10)
  | none => 0

/-- Specification-side definition (from the spec's words, for comparison
with the code): the number of unescaped delimiter bytes of a source,
where a backslash escapes exactly the next byte and a newline clears the
escape flag.  Unlike the code, this reading is independent of any read
chunking. -/
def specUnescapedDelimStep (p : Bool × Nat) (b : Nat) : Bool × Nat :=
  if b = 92 then (true, p.2)
  else if b = 10 then (false, p.2)
  else if b = ENTRY_DELIMITER then (false, if p.1 then p.2 else p.2 + 1)
  else (false, p.2)

/-- Number of unescaped delimiter bytes in a source (specification
reading). -/
def specUnescapedDelimCount (src : List Nat) : Nat :=
  (src.foldl specUnescapedDelimStep (false, 0)).2

/-- The source exhibiting the chunk-boundary escape reset: 1023 filler
bytes, then a backslash as the 1024th byte (last byte of the first read
chunk) escaping a delimiter that opens the second chunk. -/
def chunkBoundaryInput : List Nat := List.replicate 1023 97 ++ [92, 37]

/-- Chain predicate for a record index: starting from offset `pos`, the
descriptors are contiguous and end exactly at offset `e`. -/
def chainFrom : Nat → List SeekPos → Nat → Prop
  | pos, [], e => e = pos
  | pos, sp :: rest, e => sp.start_pos = pos ∧ chainFrom (pos + sp.len) rest e

/-- A descriptor is well-formed with respect to the scanned prefix: its
span is non-empty, lies inside the prefix, and closes with the delimiter
byte. -/
def entryEnds (proc : List Nat) (sp : SeekPos) : Prop :=
  0 < sp.len ∧ sp.start_pos + sp.len ≤ proc.length ∧
    proc[sp.start_pos + sp.len - 1]? = some ENTRY_DELIMITER

/-- A descriptor's `line_number` field records the 1-based line of the
first non-whitespace byte of its span. -/
def entryLine (proc : List Nat) (sp : SeekPos) : Prop :=
  ∃ j, firstNonWsIdx ((proc.drop sp.start_pos).take sp.len) = some j ∧
    sp.line_number = 1 + ((proc.take (sp.start_pos + j)).count 10)

/-- Invariant of the indexing scan, relating the scan state to the prefix
`proc` of bytes consumed so far. -/
structure ScanInv (proc : List Nat) (st : ScanState) : Prop where
  pos_len : st.entry_pos + st.entry_len = proc.length
  line_eq : st.current_line = 1 + proc.count 10
  eline_eq : st.entry_line = (firstNonWsIdx (proc.drop st.entry_pos)).map
      (fun j => 1 + ((proc.take (st.entry_pos + j)).count 10))
  chain : chainFrom 0 st.entries st.entry_pos
  ends : ∀ sp ∈ st.entries, entryEnds proc sp
  lines : ∀ sp ∈ st.entries, entryLine proc sp

/-- The parse errors of `src/parse.rs`. -/
inductive ParseError
  | InvalidEscape (c : Char)
  | UnescapedChar (c : Char)
  | UnexpectedEnd
deriving DecidableEq

/-- The tokens of `src/parse.rs`. -/
inductive Token
  | Text (s : List Char)
  | Resource (s : List Char)
deriving DecidableEq

/-- The parser states of `src/parse.rs` (`Text` is the scanning state,
`InPath` the inside-reference state). -/
inductive ParseState
  | Text (s : List Char)
  | InPath (s : List Char)
  | Escape
deriving DecidableEq

/-- The `EntryParser` struct. -/
structure EntryParser where
  state : ParseState
  last_state : Option ParseState
deriving DecidableEq

/-- `EntryParser::new()`. -/
def EntryParser.new : EntryParser := ⟨ParseState.Text [], none⟩

/-- Result type for the parser: `ok`, a parse error, or the `panic!`
inside `process_char`. -/
inductive PResult (α : Type)
  | ok (val : α)
  | error (e : ParseError)
  | panicked
deriving DecidableEq

/-- `ENTRY_DELIMITER_CHAR` from `src/main.rs`. -/
def ENTRY_DELIMITER_CHAR : Char := '%'

/-- `EntryParser::process_char`: one step of the tokenizer state machine,
returning the updated parser and an optional emitted token. -/
def process_char (p : EntryParser) (ch : Char) :
    PResult (EntryParser × Option Token) :=
  match p.state with
  | ParseState.Text s =>
      if ch = '[' then
        PResult.ok (⟨ParseState.InPath [], p.last_state⟩,
          if s.isEmpty then none else some (Token.Text s))
      else if ch = '\\' then
        PResult.ok (⟨ParseState.Escape, some (ParseState.Text s)⟩, none)
      else if ch = ']' then
        PResult.error (ParseError.UnescapedChar ch)
      else
        PResult.ok (⟨ParseState.Text (s ++ [ch]), p.last_state⟩, none)
  | ParseState.InPath s =>
      if ch = ']' then
        PResult.ok (⟨ParseState.Text [], p.last_state⟩,
          some (Token.Resource s))
      else if ch = '\\' then
        PResult.ok (⟨ParseState.Escape, some (ParseState.InPath s)⟩, none)
      else if ch = '[' then
        PResult.error (ParseError.UnescapedChar ch)
      else
        PResult.ok (⟨ParseState.InPath (s ++ [ch]), p.last_state⟩, none)
  | ParseState.Escape =>
      if ch = '\\' ∨ ch = '[' ∨ ch = ']' ∨ ch = ENTRY_DELIMITER_CHAR then
        match p.last_state.getD (ParseState.Text []) with
        | ParseState.Text s =>
            PResult.ok (⟨ParseState.Text (s ++ [ch]), none⟩, none)
        | ParseState.InPath s =>
            PResult.ok (⟨ParseState.InPath (s ++ [ch]), none⟩, none)
        | ParseState.Escape => PResult.panicked
      else
        PResult.error (ParseError.InvalidEscape ch)

/-- The `for ch in msg.chars()` loop of `EntryParser::parse`: thread the
parser through the characters, collecting emitted tokens in order. -/
def parseLoop : EntryParser → List Char → PResult (EntryParser × List Token)
  | p, [] => PResult.ok (p, [])
  | p, ch :: rest =>
      match process_char p ch with
      | PResult.ok (p', tok) =>
          match parseLoop p' rest with
          | PResult.ok (p'', toks) => PResult.ok (p'', tok.toList ++ toks)
          | PResult.error e => PResult.error e
          | PResult.panicked => PResult.panicked
      | PResult.error e => PResult.error e
      | PResult.panicked => PResult.panicked

/-- `EntryParser::parse`: run the loop, then at end of input emit a final
non-empty text accumulator, or fail with `UnexpectedEnd` when the final
state is not the scanning state. -/
def parse (msg : List Char) : PResult (List Token) :=
  match parseLoop EntryParser.new msg with
  | PResult.ok (p, toks) =>
      match p.state with
      | ParseState.Text val =>
          PResult.ok (toks ++ if val.isEmpty then [] else [Token.Text val])
      | _ => PResult.error ParseError.UnexpectedEnd
  | PResult.error e => PResult.error e
  | PResult.panicked => PResult.panicked

/-- `parse_message` from `src/parse.rs`. -/
def parse_message (msg : List Char) : PResult (List Token) := parse msg

/-- The escape-state invariant of the parser: whenever the state is
`Escape`, the remembered interrupted state exists and is itself a text or
inside-reference state. -/
def goodEscape (p : EntryParser) : Prop :=
  p.state = ParseState.Escape →
    ∃ s, p.last_state = some (ParseState.Text s) ∨
      p.last_state = some (ParseState.InPath s)

-- Sanity checks on small concrete inputs (the testable properties of the
-- spec on their literal examples).
example : entrySeekerNew [97, 37, 98] = [⟨0, 2, 1⟩] := by decide
example : (get_entry [97, 37, 98] 0).map Entry.msg = some [97] := by decide
example : entrySeekerNew [97, 92, 37, 98, 37] = [⟨0, 5, 1⟩] := by decide
example : (get_entry [97, 92, 37, 98, 37] 0).map Entry.msg =
    some [97, 92, 37, 98] := by decide
example : (get_entry [10, 102, 111, 111, 37] 0).map Entry.line_number =
    some 2 := by decide
example : parse_message ['[', 'a', 'b', 'c'] =
    PResult.error ParseError.UnexpectedEnd := by decide
example : parse_message ['a', ']', 'b'] =
    PResult.error (ParseError.UnescapedChar ']') := by decide
example : parse_message ['a', '\\', 'q', 'b'] =
    PResult.error (ParseError.InvalidEscape 'q') := by decide
example : parse_message ['a', '\\', '[', 'b'] =
    PResult.ok [Token.Text ['a', '[', 'b']] := by decide

-- ### Generic list lemmas

theorem take_append_left {α : Type} {l l' : List α} {n : Nat} (h : n ≤ l.length) :
    (l ++ l').take n = l.take n := by
  induction l generalizing n with
  | nil =>
      have : n = 0 := Nat.le_zero.mp h
      subst this; simp
  | cons a t ih =>
      cases n with
      | zero => simp
      | succ m =>
          simp only [List.cons_append, List.take_succ_cons]
          rw [ih (Nat.le_of_succ_le_succ h)]

theorem drop_append_left {α : Type} {l l' : List α} {n : Nat} (h : n ≤ l.length) :
    (l ++ l').drop n = l.drop n ++ l' := by
  induction l generalizing n with
  | nil =>
      have : n = 0 := Nat.le_zero.mp h
      subst this; simp
  | cons a t ih =>
      cases n with
      | zero => simp
      | succ m =>
          simp only [List.cons_append, List.drop_succ_cons]
          exact ih (Nat.le_of_succ_le_succ h)

theorem span_append {α : Type} {proc l : List α} {s n : Nat}
    (h : s + n ≤ proc.length) :
    ((proc ++ l).drop s).take n = (proc.drop s).take n := by
  rw [drop_append_left (Nat.le_trans (Nat.le_add_right s n) h)]
  rw [take_append_left (by simp [List.length_drop]; omega)]

-- ### Lemmas about `firstNonWsIdx`

theorem firstNonWsIdx_lt_length {l : List Nat} {j : Nat}
    (h : firstNonWsIdx l = some j) : j < l.length := by
  induction l generalizing j with
  | nil => simp [firstNonWsIdx] at h
  | cons b t ih =>
      by_cases hb : isAsciiWhitespaceByte b
      · simp only [firstNonWsIdx, hb, if_pos] at h
        cases ht : firstNonWsIdx t with
        | none => rw [ht] at h; simp at h
        | some k =>
            rw [ht] at h
            simp only [Option.map_some', Option.some.injEq] at h
            subst h
            have := ih ht
            simp only [List.length_cons]
            omega
      · simp only [firstNonWsIdx, hb, if_neg, Bool.false_eq_true,
          not_false_eq_true, Option.some.injEq] at h
        subst h; simp

theorem firstNonWsIdx_append_some {l l' : List Nat} {j : Nat}
    (h : firstNonWsIdx l = some j) : firstNonWsIdx (l ++ l') = some j := by
  induction l generalizing j with
  | nil => simp [firstNonWsIdx] at h
  | cons b t ih =>
      by_cases hb : isAsciiWhitespaceByte b
      · simp only [firstNonWsIdx, hb, if_pos] at h
        cases ht : firstNonWsIdx t with
        | none => rw [ht] at h; simp at h
        | some k =>
            rw [ht] at h
            simp only [Option.map_some', Option.some.injEq] at h
            subst h
            simp only [List.cons_append, firstNonWsIdx, hb, if_pos, List.append_eq]
            rw [ih ht]
            simp
      · simp only [firstNonWsIdx, hb, Bool.false_eq_true, not_false_eq_true,
          if_neg, Option.some.injEq] at h
        subst h
        simp [List.cons_append, firstNonWsIdx, hb]

theorem firstNonWsIdx_append_of_none {l : List Nat}
    (h : firstNonWsIdx l = none) (b : Nat) :
    firstNonWsIdx (l ++ [b]) =
      if isAsciiWhitespaceByte b then none else some l.length := by
  induction l with
  | nil => simp [firstNonWsIdx]
  | cons a t ih =>
      by_cases ha : isAsciiWhitespaceByte a
      · simp only [firstNonWsIdx, ha, if_pos] at h
        have ht : firstNonWsIdx t = none := by
          cases htt : firstNonWsIdx t with
          | none => rfl
          | some k => rw [htt] at h; simp at h
        simp only [List.cons_append, firstNonWsIdx, ha, if_pos, List.append_eq]
        rw [ih ht]
        by_cases hb : isAsciiWhitespaceByte b <;> simp [hb]
      · simp [firstNonWsIdx, ha] at h

-- ### Lemmas about `chainFrom`

theorem chainFrom_snoc {pos e : Nat} {l : List SeekPos} (h : chainFrom pos l e)
    (n ln : Nat) : chainFrom pos (l ++ [⟨e, n, ln⟩]) (e + n) := by
  induction l generalizing pos with
  | nil =>
      simp only [chainFrom] at h
      subst h
      exact ⟨rfl, rfl⟩
  | cons sp rest ih => exact ⟨h.1, ih h.2⟩

theorem chainFrom_head {pos e : Nat} {l : List SeekPos} {sp : SeekPos}
    (h : chainFrom pos l e) (h0 : l[0]? = some sp) : sp.start_pos = pos := by
  cases l with
  | nil => simp at h0
  | cons a rest =>
      simp only [List.getElem?_cons_zero, Option.some.injEq] at h0
      subst h0
      exact h.1

theorem chainFrom_adjacent {l : List SeekPos} :
    ∀ {pos e i : Nat} {sp sp' : SeekPos}, chainFrom pos l e →
    l[i]? = some sp → l[i + 1]? = some sp' →
    sp'.start_pos = sp.start_pos + sp.len := by
  induction l with
  | nil => intro pos e i sp sp' _ h1 _; simp at h1
  | cons a rest ih =>
      intro pos e i sp sp' h h1 h2
      cases i with
      | zero =>
          simp only [List.getElem?_cons_zero, Option.some.injEq] at h1
          subst h1
          have hh := chainFrom_head h.2 (by simpa using h2)
          rw [hh, h.1]
      | succ k => exact ih h.2 (by simpa using h1) (by simpa using h2)

-- ### Stability of descriptor well-formedness under appending bytes

theorem entryEnds_append {proc : List Nat} {sp : SeekPos} (l : List Nat)
    (h : entryEnds proc sp) : entryEnds (proc ++ l) sp := by
  obtain ⟨h1, h2, h3⟩ := h
  refine ⟨h1, ?_, ?_⟩
  · simp only [List.length_append]; omega
  · rw [List.getElem?_append_left (by omega)]
    exact h3

theorem entryLine_append {proc : List Nat} {sp : SeekPos} (l : List Nat)
    (hrange : sp.start_pos + sp.len ≤ proc.length)
    (h : entryLine proc sp) : entryLine (proc ++ l) sp := by
  obtain ⟨j, hj, hline⟩ := h
  have hjlt : j < ((proc.drop sp.start_pos).take sp.len).length :=
    firstNonWsIdx_lt_length hj
  have hlt : sp.start_pos + j < proc.length := by
    simp only [List.length_take, List.length_drop] at hjlt
    omega
  refine ⟨j, ?_, ?_⟩
  · rw [span_append hrange]; exact hj
  · rw [take_append_left (Nat.le_of_lt hlt)]; exact hline

-- ### The entry-line update of one scan step

theorem eline_step (proc : List Nat) (st : ScanState) (b : Nat)
    (h : ScanInv proc st) :
    elineUpd st b
    = (firstNonWsIdx ((proc ++ [b]).drop st.entry_pos)).map
        (fun j => 1 + (((proc ++ [b]).take (st.entry_pos + j)).count 10)) := by
  have hpos : st.entry_pos ≤ proc.length := Nat.le.intro h.pos_len
  simp only [elineUpd]
  rw [drop_append_left hpos]
  cases hf : firstNonWsIdx (proc.drop st.entry_pos) with
  | some j =>
      have h1 : firstNonWsIdx (proc.drop st.entry_pos ++ [b]) = some j :=
        firstNonWsIdx_append_some hf
      have hjlt : j < (proc.drop st.entry_pos).length := firstNonWsIdx_lt_length hf
      have hlt : st.entry_pos + j < proc.length := by
        simp only [List.length_drop] at hjlt; omega
      rw [h1, h.eline_eq, hf]
      simp only [Option.map_some', Option.isNone_some, Bool.false_and, Bool.false_eq_true,
        if_neg, not_false_eq_true]
      rw [take_append_left (Nat.le_of_lt hlt)]
  | none =>
      have heq : st.entry_line = none := by rw [h.eline_eq, hf]; rfl
      rw [firstNonWsIdx_append_of_none hf b]
      by_cases hws : isAsciiWhitespaceByte b
      · simp [heq, hws]
      · have hlen : st.entry_pos + (proc.drop st.entry_pos).length = proc.length := by
          simp only [List.length_drop]; omega
        simp only [heq, hws, Option.isNone_none, Bool.true_and, Bool.not_false, if_pos,
          Bool.false_eq_true, if_neg, not_false_eq_true, Option.map_some']
        rw [hlen, take_append_left (Nat.le_refl _), List.take_length, h.line_eq]

-- ### Explicit transition shapes of `scanByte`

theorem scanByte_backslash (esc : Bool) (st : ScanState) :
    scanByte esc st 92 =
      (true, { st with entry_len := st.entry_len + 1,
                       entry_line := elineUpd st 92 }) := rfl

theorem scanByte_newline (esc : Bool) (st : ScanState) :
    scanByte esc st 10 =
      (false, { st with entry_len := st.entry_len + 1,
                        entry_line := elineUpd st 10,
                        current_line := st.current_line + 1 }) := rfl

theorem scanByte_delim_push (st : ScanState) :
    scanByte false st 37 =
      (false, ⟨st.entries ++
          [⟨st.entry_pos, st.entry_len + 1, (elineUpd st 37).getD st.current_line⟩],
        st.entry_pos + (st.entry_len + 1), 0, st.current_line, none⟩) := rfl

theorem scanByte_delim_escaped (st : ScanState) :
    scanByte true st 37 =
      (false, { st with entry_len := st.entry_len + 1,
                        entry_line := elineUpd st 37 }) := rfl

theorem scanByte_other (esc : Bool) (st : ScanState) {b : Nat}
    (h92 : b ≠ 92) (h10 : b ≠ 10) (h37 : b ≠ 37) :
    scanByte esc st b =
      (false, { st with entry_len := st.entry_len + 1,
                        entry_line := elineUpd st b }) := by
  simp only [scanByte, ENTRY_DELIMITER]
  rw [if_neg h92, if_neg h10, if_neg h37]

-- ### Counting newlines across an appended byte

theorem count10_append_other (proc : List Nat) {b : Nat} (hb : b ≠ 10) :
    (proc ++ [b]).count 10 = proc.count 10 := by
  rw [List.count_append, List.count_singleton]
  simp [hb]

theorem count10_append_nl (proc : List Nat) :
    (proc ++ [10]).count 10 = proc.count 10 + 1 := by
  rw [List.count_append, List.count_singleton]
  simp

-- ### Invariant preservation for each transition shape

theorem scanInv_keep {proc : List Nat} {st : ScanState} {b : Nat}
    (h : ScanInv proc st) (hb10 : b ≠ 10) :
    ScanInv (proc ++ [b])
      { st with entry_len := st.entry_len + 1, entry_line := elineUpd st b } := by
  refine ⟨?_, ?_, ?_, ?_, ?_, ?_⟩
  · have := h.pos_len
    simp only [List.length_append, List.length_cons, List.length_nil]
    omega
  · show st.current_line = 1 + (proc ++ [b]).count 10
    rw [count10_append_other proc hb10]
    exact h.line_eq
  · exact eline_step proc st b h
  · exact h.chain
  · intro sp hsp
    exact entryEnds_append _ (h.ends sp hsp)
  · intro sp hsp
    exact entryLine_append _ (h.ends sp hsp).2.1 (h.lines sp hsp)

theorem scanInv_keep_nl {proc : List Nat} {st : ScanState}
    (h : ScanInv proc st) :
    ScanInv (proc ++ [10])
      { st with entry_len := st.entry_len + 1, entry_line := elineUpd st 10,
                current_line := st.current_line + 1 } := by
  refine ⟨?_, ?_, ?_, ?_, ?_, ?_⟩
  · have := h.pos_len
    simp only [List.length_append, List.length_cons, List.length_nil]
    omega
  · show st.current_line + 1 = 1 + (proc ++ [10]).count 10
    rw [count10_append_nl, h.line_eq]
    omega
  · exact eline_step proc st 10 h
  · exact h.chain
  · intro sp hsp
    exact entryEnds_append _ (h.ends sp hsp)
  · intro sp hsp
    exact entryLine_append _ (h.ends sp hsp).2.1 (h.lines sp hsp)

theorem scanInv_close {proc : List Nat} {st : ScanState}
    (h : ScanInv proc st) :
    ScanInv (proc ++ [37])
      ⟨st.entries ++
          [⟨st.entry_pos, st.entry_len + 1, (elineUpd st 37).getD st.current_line⟩],
        st.entry_pos + (st.entry_len + 1), 0, st.current_line, none⟩ := by
  have hpos : st.entry_pos ≤ proc.length := Nat.le.intro h.pos_len
  have hpl := h.pos_len
  have hspan : ((proc ++ [37]).drop st.entry_pos).take (st.entry_len + 1)
      = proc.drop st.entry_pos ++ [37] := by
    rw [drop_append_left hpos]
    have hl : (proc.drop st.entry_pos ++ [37]).length = st.entry_len + 1 := by
      simp only [List.length_append, List.length_drop, List.length_cons,
        List.length_nil]
      omega
    rw [← hl, List.take_length]
  have hnew_line : entryLine (proc ++ [37])
      ⟨st.entry_pos, st.entry_len + 1, (elineUpd st 37).getD st.current_line⟩ := by
    cases hf : firstNonWsIdx (proc.drop st.entry_pos) with
    | some j =>
        have hjlt : j < (proc.drop st.entry_pos).length := firstNonWsIdx_lt_length hf
        have hlt : st.entry_pos + j < proc.length := by
          simp only [List.length_drop] at hjlt
          omega
        refine ⟨j, ?_, ?_⟩
        · show firstNonWsIdx
              (((proc ++ [37]).drop st.entry_pos).take (st.entry_len + 1)) = some j
          rw [hspan]
          exact firstNonWsIdx_append_some hf
        · have hsome : st.entry_line
              = some (1 + ((proc.take (st.entry_pos + j)).count 10)) := by
            rw [h.eline_eq, hf]
            rfl
          show (elineUpd st 37).getD st.current_line
              = 1 + (((proc ++ [37]).take (st.entry_pos + j)).count 10)
          simp only [elineUpd, hsome, Option.isNone_some, Bool.false_and,
            Bool.false_eq_true, not_false_eq_true, if_neg, Option.getD_some]
          rw [take_append_left (Nat.le_of_lt hlt)]
    | none =>
        have hnone : st.entry_line = none := by
          rw [h.eline_eq, hf]
          rfl
        refine ⟨(proc.drop st.entry_pos).length, ?_, ?_⟩
        · show firstNonWsIdx
              (((proc ++ [37]).drop st.entry_pos).take (st.entry_len + 1)) = some _
          rw [hspan, firstNonWsIdx_append_of_none hf 37]
          simp [isAsciiWhitespaceByte]
        · have hlen : st.entry_pos + (proc.drop st.entry_pos).length = proc.length := by
            simp only [List.length_drop]
            omega
          show (elineUpd st 37).getD st.current_line
              = 1 + (((proc ++ [37]).take
                  (st.entry_pos + (proc.drop st.entry_pos).length)).count 10)
          simp only [elineUpd, hnone, Option.isNone_none, Bool.true_and]
          rw [hlen, take_append_left (Nat.le_refl _), List.take_length]
          simp only [isAsciiWhitespaceByte]
          norm_num
          exact h.line_eq
  refine ⟨?_, ?_, ?_, ?_, ?_, ?_⟩
  · simp only [List.length_append, List.length_cons, List.length_nil]
    omega
  · show st.current_line = 1 + (proc ++ [37]).count 10
    rw [count10_append_other proc (by decide)]
    exact h.line_eq
  · show (none : Option Nat) = (firstNonWsIdx
        ((proc ++ [37]).drop (st.entry_pos + (st.entry_len + 1)))).map _
    have hge : (proc ++ [37]).length ≤ st.entry_pos + (st.entry_len + 1) := by
      simp only [List.length_append, List.length_cons, List.length_nil]
      omega
    rw [List.drop_of_length_le hge]
    rfl
  · exact chainFrom_snoc h.chain _ _
  · intro sp hsp
    rcases List.mem_append.mp hsp with hold | hnew
    · exact entryEnds_append _ (h.ends sp hold)
    · rw [List.mem_singleton] at hnew
      subst hnew
      refine ⟨Nat.succ_pos _, ?_, ?_⟩
      · simp only [List.length_append, List.length_cons, List.length_nil]
        omega
      · show (proc ++ [37])[st.entry_pos + (st.entry_len + 1) - 1]?
            = some ENTRY_DELIMITER
        have heq : st.entry_pos + (st.entry_len + 1) - 1 = proc.length := by omega
        rw [heq, List.getElem?_concat_length]
        rfl
  · intro sp hsp
    rcases List.mem_append.mp hsp with hold | hnew
    · exact entryLine_append _ (h.ends sp hold).2.1 (h.lines sp hold)
    · rw [List.mem_singleton] at hnew
      subst hnew
      exact hnew_line

theorem scanInv_step {proc : List Nat} {st : ScanState} (esc : Bool) (b : Nat)
    (h : ScanInv proc st) : ScanInv (proc ++ [b]) (scanByte esc st b).2 := by
  by_cases hb92 : b = 92
  · subst hb92
    rw [scanByte_backslash]
    exact scanInv_keep h (by decide)
  · by_cases hb10 : b = 10
    · subst hb10
      rw [scanByte_newline]
      exact scanInv_keep_nl h
    · by_cases hb37 : b = 37
      · subst hb37
        cases esc with
        | false =>
            rw [scanByte_delim_push]
            exact scanInv_close h
        | true =>
            rw [scanByte_delim_escaped]
            exact scanInv_keep h (by decide)
      · rw [scanByte_other esc st hb92 hb10 hb37]
        exact scanInv_keep h hb10

theorem scanInv_foldl_bytes (bytes : List Nat) :
    ∀ (proc : List Nat) (esc : Bool) (st : ScanState), ScanInv proc st →
      ScanInv (proc ++ bytes) ((bytes.foldl scanStep (esc, st)).2) := by
  induction bytes with
  | nil => intro proc esc st h; simpa using h
  | cons b rest ih =>
      intro proc esc st h
      have hstep := scanInv_step esc b h
      have := ih (proc ++ [b]) (scanByte esc st b).1 (scanByte esc st b).2 hstep
      simpa [List.foldl_cons, scanStep, List.append_assoc] using this

theorem scanInv_foldl_chunks (chs : List (List Nat)) :
    ∀ (proc : List Nat) (st : ScanState), ScanInv proc st →
      ScanInv (proc ++ chs.flatten) (chs.foldl scanChunk st) := by
  induction chs with
  | nil => intro proc st h; simpa using h
  | cons c rest ih =>
      intro proc st h
      have h1 : ScanInv (proc ++ c) (scanChunk st c) :=
        scanInv_foldl_bytes c proc false st h
      have := ih (proc ++ c) (scanChunk st c) h1
      simpa [List.flatten, List.append_assoc] using this

theorem scanInv_init : ScanInv [] initScanState := by
  refine ⟨rfl, rfl, rfl, rfl, ?_, ?_⟩ <;> intro sp hsp <;> simp [initScanState] at hsp

theorem readChunksAux_join (fuel : Nat) :
    ∀ l : List Nat, l.length ≤ fuel → (readChunksAux fuel l).flatten = l := by
  induction fuel with
  | zero =>
      intro l hl
      have : l = [] := List.length_eq_zero.mp (Nat.le_zero.mp hl)
      subst this
      rfl
  | succ fuel ih =>
      intro l hl
      cases l with
      | nil => rfl
      | cons b rest =>
          simp only [readChunksAux, List.flatten]
          rw [ih ((b :: rest).drop 1024)
            (by simp only [List.length_drop, List.length_cons] at hl ⊢; omega)]
          exact List.take_append_drop 1024 (b :: rest)

theorem readChunks_join (l : List Nat) : (readChunks l).flatten = l :=
  readChunksAux_join l.length l (Nat.le_refl _)

theorem scanInv_entrySeekerNew (src : List Nat) :
    ScanInv src ((readChunks src).foldl scanChunk initScanState) := by
  have := scanInv_foldl_chunks (readChunks src) [] initScanState scanInv_init
  rwa [List.nil_append, readChunks_join] at this

-- ### Parser helper lemmas

theorem parseLoop_cons_tok {p p' p'' : EntryParser} {ch : Char}
    {t : Option Token} {rest : List Char} {toks : List Token}
    (hpc : process_char p ch = PResult.ok (p', t))
    (hrest : parseLoop p' rest = PResult.ok (p'', toks)) :
    parseLoop p (ch :: rest) = PResult.ok (p'', t.toList ++ toks) := by
  simp only [parseLoop, hpc, hrest]

theorem parseLoop_text_plain (t : List Char) :
    ∀ (s : List Char) (ls : Option ParseState),
      (∀ c ∈ t, c ≠ '\\' ∧ c ≠ '[' ∧ c ≠ ']') →
      parseLoop ⟨ParseState.Text s, ls⟩ t
        = PResult.ok (⟨ParseState.Text (s ++ t), ls⟩, []) := by
  induction t with
  | nil =>
      intro s ls _
      simp [parseLoop]
  | cons c rest ih =>
      intro s ls hc
      obtain ⟨h1, h2, h3⟩ := hc c (List.mem_cons_self c rest)
      have hpc : process_char ⟨ParseState.Text s, ls⟩ c
          = PResult.ok (⟨ParseState.Text (s ++ [c]), ls⟩, none) := by
        simp only [process_char]
        rw [if_neg h2, if_neg h1, if_neg h3]
      have hrest := ih (s ++ [c]) ls (fun c' hc' => hc c' (List.mem_cons_of_mem _ hc'))
      have := parseLoop_cons_tok hpc hrest
      simpa [List.append_assoc] using this

theorem parseLoop_inpath_plain (r : List Char) :
    ∀ (s : List Char) (ls : Option ParseState) (rest : List Char),
      (∀ c ∈ r, c ≠ '\\' ∧ c ≠ '[' ∧ c ≠ ']') →
      parseLoop ⟨ParseState.InPath s, ls⟩ (r ++ rest)
        = parseLoop ⟨ParseState.InPath (s ++ r), ls⟩ rest := by
  induction r with
  | nil =>
      intro s ls rest _
      simp
  | cons c cs ih =>
      intro s ls rest hc
      obtain ⟨h1, h2, h3⟩ := hc c (List.mem_cons_self c cs)
      have hpc : process_char ⟨ParseState.InPath s, ls⟩ c
          = PResult.ok (⟨ParseState.InPath (s ++ [c]), ls⟩, none) := by
        simp only [process_char]
        rw [if_neg h3, if_neg h1, if_neg h2]
      have hcs := ih (s ++ [c]) ls rest (fun c' hc' => hc c' (List.mem_cons_of_mem _ hc'))
      have hacc : s ++ [c] ++ cs = s ++ c :: cs := by simp
      rw [hacc] at hcs
      simp only [List.cons_append, parseLoop, hpc, List.append_eq]
      rw [hcs]
      cases hr : parseLoop ⟨ParseState.InPath (s ++ c :: cs), ls⟩ rest with
      | ok v =>
          obtain ⟨a, b⟩ := v
          simp
      | error e => simp
      | panicked => simp

theorem processChar_good {p : EntryParser} (hg : goodEscape p) {ch : Char}
    {p' : EntryParser} {t : Option Token}
    (h : process_char p ch = PResult.ok (p', t)) : goodEscape p' := by
  obtain ⟨st, ls⟩ := p
  cases st with
  | Text s =>
      simp only [process_char] at h
      by_cases h1 : ch = '['
      · rw [if_pos h1] at h
        simp only [PResult.ok.injEq, Prod.mk.injEq] at h
        obtain ⟨hp, _⟩ := h
        subst hp
        intro hst
        simp at hst
      · by_cases h2 : ch = '\\'
        · rw [if_neg h1, if_pos h2] at h
          simp only [PResult.ok.injEq, Prod.mk.injEq] at h
          obtain ⟨hp, _⟩ := h
          subst hp
          intro _
          exact ⟨s, Or.inl rfl⟩
        · by_cases h3 : ch = ']'
          · rw [if_neg h1, if_neg h2, if_pos h3] at h
            simp at h
          · rw [if_neg h1, if_neg h2, if_neg h3] at h
            simp only [PResult.ok.injEq, Prod.mk.injEq] at h
            obtain ⟨hp, _⟩ := h
            subst hp
            intro hst
            simp at hst
  | InPath s =>
      simp only [process_char] at h
      by_cases h1 : ch = ']'
      · rw [if_pos h1] at h
        simp only [PResult.ok.injEq, Prod.mk.injEq] at h
        obtain ⟨hp, _⟩ := h
        subst hp
        intro hst
        simp at hst
      · by_cases h2 : ch = '\\'
        · rw [if_neg h1, if_pos h2] at h
          simp only [PResult.ok.injEq, Prod.mk.injEq] at h
          obtain ⟨hp, _⟩ := h
          subst hp
          intro _
          exact ⟨s, Or.inr rfl⟩
        · by_cases h3 : ch = '['
          · rw [if_neg h1, if_neg h2, if_pos h3] at h
            simp at h
          · rw [if_neg h1, if_neg h2, if_neg h3] at h
            simp only [PResult.ok.injEq, Prod.mk.injEq] at h
            obtain ⟨hp, _⟩ := h
            subst hp
            intro hst
            simp at hst
  | Escape =>
      simp only [process_char] at h
      by_cases hc : ch = '\\' ∨ ch = '[' ∨ ch = ']' ∨ ch = ENTRY_DELIMITER_CHAR
      · rw [if_pos hc] at h
        obtain ⟨s, hs | hs⟩ := hg rfl
        · simp only at hs
          rw [hs] at h
          simp only [Option.getD_some, PResult.ok.injEq, Prod.mk.injEq] at h
          obtain ⟨hp, _⟩ := h
          subst hp
          intro hst
          simp at hst
        · simp only at hs
          rw [hs] at h
          simp only [Option.getD_some, PResult.ok.injEq, Prod.mk.injEq] at h
          obtain ⟨hp, _⟩ := h
          subst hp
          intro hst
          simp at hst
      · rw [if_neg hc] at h
        simp at h

theorem processChar_no_panic {p : EntryParser} (hg : goodEscape p) (ch : Char) :
    process_char p ch ≠ PResult.panicked := by
  obtain ⟨st, ls⟩ := p
  cases st with
  | Text s =>
      simp only [process_char]
      split_ifs <;> simp
  | InPath s =>
      simp only [process_char]
      split_ifs <;> simp
  | Escape =>
      simp only [process_char]
      split_ifs with hc
      · obtain ⟨s, hs | hs⟩ := hg rfl <;> simp only at hs <;> rw [hs] <;>
          simp [Option.getD_some]
      · simp

theorem parseLoop_good (chars : List Char) :
    ∀ p : EntryParser, goodEscape p →
      (∀ p' toks, parseLoop p chars = PResult.ok (p', toks) → goodEscape p') ∧
      parseLoop p chars ≠ PResult.panicked := by
  induction chars with
  | nil =>
      intro p hg
      constructor
      · intro p' toks h
        simp only [parseLoop, PResult.ok.injEq, Prod.mk.injEq] at h
        obtain ⟨hp, _⟩ := h
        subst hp
        exact hg
      · simp [parseLoop]
  | cons c rest ih =>
      intro p hg
      cases hpc : process_char p c with
      | ok v =>
          obtain ⟨p1, t⟩ := v
          have hg1 := processChar_good hg hpc
          have hrest := ih p1 hg1
          constructor
          · intro p' toks h
            simp only [parseLoop, hpc] at h
            cases hr : parseLoop p1 rest with
            | ok w =>
                obtain ⟨p2, toks2⟩ := w
                rw [hr] at h
                simp only [PResult.ok.injEq, Prod.mk.injEq] at h
                obtain ⟨hp, _⟩ := h
                subst hp
                exact hrest.1 p2 toks2 hr
            | error e => rw [hr] at h; simp at h
            | panicked => exact absurd hr hrest.2
          · simp only [parseLoop, hpc]
            cases hr : parseLoop p1 rest with
            | ok w =>
                obtain ⟨p2, toks2⟩ := w
                simp
            | error e => simp
            | panicked => exact absurd hr hrest.2
      | error e =>
          constructor
          · intro p' toks h
            simp only [parseLoop, hpc] at h
            simp at h
          · simp [parseLoop, hpc]
      | panicked => exact absurd hpc (processChar_no_panic hg c)

-- ### Claim theorems

set_option maxRecDepth 100000 in
/-- C1: the claim states that `count()` always equals the number of
unescaped delimiter bytes of the source.  The code violates this: the
`escape` flag is a local of the read loop and resets at every 1024-byte
chunk boundary, so a backslash ending one chunk does not escape a
delimiter opening the next.  On `chunkBoundaryInput` (1023 filler bytes,
then `\%`) the code indexes one record although the source contains no
unescaped delimiter. -/
theorem claim_C1_chunk_boundary :
    (entrySeekerNew chunkBoundaryInput).length = 1 ∧
    specUnescapedDelimCount chunkBoundaryInput = 0 := by
  constructor
  · decide
  · decide

/-- C2 counterexample: for the source `"a\%b%"` the claim asserts
`get(0)` text `"a%b"`; the code keeps the backslash, so the claimed
conjunction is false. -/
theorem claim_C2_counterexample :
    ¬ ((entrySeekerNew [97, 92, 37, 98, 37]).length = 1 ∧
       (get_entry [97, 92, 37, 98, 37] 0).map Entry.msg = some [97, 37, 98]) := by
  decide

/-- C2 (amended): for the source bytes `"a\%b%"` the seeker indexes
exactly one record; the escaped delimiter is not a boundary, but the
seeker returns the raw text `"a\%b"` with the backslash retained; the
backslash is consumed only by the tokenizer, where the escaped delimiter
becomes a literal `%`: parsing `"a\%b"` yields `[Text("a%b")]`. -/
theorem claim_C2_amended :
    (entrySeekerNew [97, 92, 37, 98, 37]).length = 1 ∧
    (get_entry [97, 92, 37, 98, 37] 0).map Entry.msg = some [97, 92, 37, 98] ∧
    parse_message ['a', '\\', '%', 'b'] = PResult.ok [Token.Text ['a', '%', 'b']] := by
  refine ⟨by decide, by decide, by decide⟩

/-- C3: a bracketed span followed by a literal run parses to exactly one
`Resource` token followed by one `Text` token, in scan order, provided
the span and the run contain no unescaped special characters; in
particular `parse("[img.png]hello")` yields
`[Resource("img.png"), Text("hello")]` (see the witness). -/
theorem claim_C3_resource_then_text (r t : List Char)
    (hr : ∀ c ∈ r, c ≠ '\\' ∧ c ≠ '[' ∧ c ≠ ']')
    (ht : ∀ c ∈ t, c ≠ '\\' ∧ c ≠ '[' ∧ c ≠ ']')
    (hne : t ≠ []) :
    parse_message ('[' :: (r ++ (']' :: t)))
      = PResult.ok [Token.Resource r, Token.Text t] := by
  have h1 : process_char EntryParser.new '['
      = PResult.ok (⟨ParseState.InPath [], none⟩, none) := by
    simp [process_char, EntryParser.new]
  have h2 : process_char ⟨ParseState.InPath r, none⟩ ']'
      = PResult.ok (⟨ParseState.Text [], none⟩, some (Token.Resource r)) := by
    simp [process_char]
  have h3 : parseLoop ⟨ParseState.Text [], none⟩ t
      = PResult.ok (⟨ParseState.Text t, none⟩, []) := by
    have := parseLoop_text_plain t [] none ht
    simpa using this
  have h5 := parseLoop_cons_tok h2 h3
  have h6 : parseLoop ⟨ParseState.InPath [], none⟩ (r ++ (']' :: t))
      = PResult.ok (⟨ParseState.Text t, none⟩, [Token.Resource r]) := by
    rw [parseLoop_inpath_plain r [] none (']' :: t) hr]
    simpa using h5
  have h7 := parseLoop_cons_tok h1 h6
  simp only [Option.toList_none, List.nil_append] at h7
  simp only [parse_message, parse, h7]
  have hemp : t.isEmpty = false := by
    cases t with
    | nil => exact absurd rfl hne
    | cons a b => rfl
  rw [hemp]
  rfl

/-- C3 witness: the concrete example from the specification. -/
theorem claim_C3_witness :
    parse_message
        ('[' :: (['i', 'm', 'g', '.', 'p', 'n', 'g'] ++
          (']' :: ['h', 'e', 'l', 'l', 'o'])))
      = PResult.ok [Token.Resource ['i', 'm', 'g', '.', 'p', 'n', 'g'],
          Token.Text ['h', 'e', 'l', 'l', 'o']] :=
  claim_C3_resource_then_text ['i', 'm', 'g', '.', 'p', 'n', 'g']
    ['h', 'e', 'l', 'l', 'o'] (by decide) (by decide) (by decide)

/-- C4: a trailing partial record with no closing delimiter is never
indexed: for the source `"a%b"`, `count() == 1` and `get(0)` returns
text `"a"`; moreover every indexed record of any source closes with the
delimiter byte, so the bytes after the last unescaped delimiter
contribute no record. -/
theorem claim_C4_trailing_partial :
    (entrySeekerNew [97, 37, 98]).length = 1 ∧
    (get_entry [97, 37, 98] 0).map Entry.msg = some [97] ∧
    ∀ (src : List Nat) (sp : SeekPos), sp ∈ entrySeekerNew src → entryEnds src sp := by
  refine ⟨by decide, by decide, ?_⟩
  intro src sp hsp
  exact (scanInv_entrySeekerNew src).ends sp hsp

/-- C4 witness: the single record of `"a%b"` is delimiter-terminated. -/
theorem claim_C4_witness : entryEnds [97, 37, 98] ⟨0, 2, 1⟩ :=
  claim_C4_trailing_partial.2.2 [97, 37, 98] ⟨0, 2, 1⟩ (by decide)

/-- C5: the parse succeeds exactly when the state after consuming all
characters is the scanning (`Text`) state; in that case a final
non-empty accumulator is emitted as one last `Text` token, and a final
`InPath` or `Escape` state fails with `UnexpectedEnd`; in particular
`parse("[abc")` yields `UnexpectedEnd`. -/
theorem claim_C5_end_state :
    (∀ msg : List Char,
      ((∃ ts, parse_message msg = PResult.ok ts) ↔
        (∃ p toks val, parseLoop EntryParser.new msg = PResult.ok (p, toks) ∧
          p.state = ParseState.Text val)) ∧
      (∀ p toks, parseLoop EntryParser.new msg = PResult.ok (p, toks) →
        (∀ val, p.state = ParseState.Text val →
          parse_message msg
            = PResult.ok (toks ++ if val.isEmpty then [] else [Token.Text val])) ∧
        ((∀ val, p.state ≠ ParseState.Text val) →
          parse_message msg = PResult.error ParseError.UnexpectedEnd))) ∧
    parse_message ['[', 'a', 'b', 'c'] = PResult.error ParseError.UnexpectedEnd := by
  constructor
  · intro msg
    constructor
    · constructor
      · rintro ⟨ts, hts⟩
        simp only [parse_message, parse] at hts
        cases hl : parseLoop EntryParser.new msg with
        | ok v =>
            obtain ⟨p, toks⟩ := v
            rw [hl] at hts
            cases hst : p.state with
            | Text val => exact ⟨p, toks, val, rfl, hst⟩
            | InPath s => simp [hst] at hts
            | Escape => simp [hst] at hts
        | error e => rw [hl] at hts; simp at hts
        | panicked => rw [hl] at hts; simp at hts
      · rintro ⟨p, toks, val, hl, hst⟩
        refine ⟨toks ++ if val.isEmpty then [] else [Token.Text val], ?_⟩
        simp only [parse_message, parse, hl, hst]
    · intro p toks hl
      constructor
      · intro val hst
        simp only [parse_message, parse, hl, hst]
      · intro hnot
        simp only [parse_message, parse, hl]
  · decide

/-- C5 witness: for the input `"a"` the loop ends in the scanning state
with accumulator `"a"`, so parsing emits the final text token. -/
theorem claim_C5_witness :
    parse_message ['a'] = PResult.ok [Token.Text ['a']] := by
  have h := ((claim_C5_end_state.1 ['a']).2 ⟨ParseState.Text ['a'], none⟩ []
    (by decide)).1 ['a'] rfl
  simpa using h

/-- C6: in the `Escape` state exactly the four characters backslash,
`[`, `]` and the record delimiter are accepted: the character is
appended to the remembered state's accumulator and that state is
resumed; any other character fails with `InvalidEscape`; in particular
`parse("a\[b")` yields `[Text("a[b")]` and `parse("a\qb")` yields
`InvalidEscape('q')`. -/
theorem claim_C6_escape_set :
    (∀ (p : EntryParser) (ch : Char) (s : List Char), p.state = ParseState.Escape →
      ((ch = '\\' ∨ ch = '[' ∨ ch = ']' ∨ ch = ENTRY_DELIMITER_CHAR) →
        (p.last_state = some (ParseState.Text s) →
          process_char p ch
            = PResult.ok (⟨ParseState.Text (s ++ [ch]), none⟩, none)) ∧
        (p.last_state = some (ParseState.InPath s) →
          process_char p ch
            = PResult.ok (⟨ParseState.InPath (s ++ [ch]), none⟩, none))) ∧
      (¬(ch = '\\' ∨ ch = '[' ∨ ch = ']' ∨ ch = ENTRY_DELIMITER_CHAR) →
        process_char p ch = PResult.error (ParseError.InvalidEscape ch))) ∧
    parse_message ['a', '\\', '[', 'b'] = PResult.ok [Token.Text ['a', '[', 'b']] ∧
    parse_message ['a', '\\', 'q', 'b']
      = PResult.error (ParseError.InvalidEscape 'q') := by
  refine ⟨?_, by decide, by decide⟩
  intro p ch s hst
  obtain ⟨st, ls⟩ := p
  simp only at hst
  subst hst
  constructor
  · intro hc
    constructor
    · intro hls
      simp only at hls
      subst hls
      simp only [process_char, if_pos hc, Option.getD_some]
    · intro hls
      simp only at hls
      subst hls
      simp only [process_char, if_pos hc, Option.getD_some]
  · intro hc
    simp only [process_char, if_neg hc]

/-- C6 witness: escaping the delimiter character inside text resumes the
text state with the literal delimiter appended. -/
theorem claim_C6_witness :
    process_char ⟨ParseState.Escape, some (ParseState.Text ['a'])⟩ '%'
      = PResult.ok (⟨ParseState.Text ['a', '%'], none⟩, none) :=
  ((claim_C6_escape_set.1 ⟨ParseState.Escape, some (ParseState.Text ['a'])⟩
    '%' ['a'] rfl).1 (by decide)).1 rfl

/-- C7: an unescaped `]` in the scanning state and an unescaped `[` in
the inside-reference state fail with `UnescapedChar` carrying that
character; in particular `parse("a]b")` yields `UnescapedChar(']')`. -/
theorem claim_C7_unescaped_bracket :
    (∀ (p : EntryParser) (s : List Char), p.state = ParseState.Text s →
      process_char p ']' = PResult.error (ParseError.UnescapedChar ']')) ∧
    (∀ (p : EntryParser) (s : List Char), p.state = ParseState.InPath s →
      process_char p '[' = PResult.error (ParseError.UnescapedChar '[')) ∧
    parse_message ['a', ']', 'b'] = PResult.error (ParseError.UnescapedChar ']') := by
  refine ⟨?_, ?_, by decide⟩
  · intro p s hst
    obtain ⟨st, ls⟩ := p
    simp only at hst
    subst hst
    simp only [process_char]
    rw [if_neg (by decide), if_neg (by decide)]
    simp
  · intro p s hst
    obtain ⟨st, ls⟩ := p
    simp only at hst
    subst hst
    simp only [process_char]
    rw [if_neg (by decide), if_neg (by decide)]
    simp

/-- C7 witness: a `]` in the initial scanning state is rejected. -/
theorem claim_C7_witness :
    process_char ⟨ParseState.Text [], none⟩ ']'
      = PResult.error (ParseError.UnescapedChar ']') :=
  claim_C7_unescaped_bracket.1 ⟨ParseState.Text [], none⟩ [] rfl

/-- C8: each indexed record's `line_number` is the 1-based line of the
record's first non-ASCII-whitespace byte (for an all-whitespace record
the span's first non-whitespace byte is its delimiter, giving the line
current at delimiter time); in particular for the source `"\nfoo%"`,
`get(0).line_number == 2`. -/
theorem claim_C8_line_number :
    (∀ (src : List Nat) (sp : SeekPos), sp ∈ entrySeekerNew src →
      sp.line_number = specLineNumber src sp.start_pos sp.len ∧
      firstNonWsIdx ((src.drop sp.start_pos).take sp.len) ≠ none) ∧
    (get_entry [10, 102, 111, 111, 37] 0).map Entry.line_number = some 2 := by
  constructor
  · intro src sp hsp
    obtain ⟨j, hj, hline⟩ := (scanInv_entrySeekerNew src).lines sp hsp
    constructor
    · simp only [specLineNumber]
      rw [hj]
      exact hline
    · rw [hj]
      simp
  · decide

/-- C8 witness: the record of `"\nfoo%"` has its first non-whitespace
byte on line 2. -/
theorem claim_C8_witness :
    (⟨0, 5, 2⟩ : SeekPos).line_number = specLineNumber [10, 102, 111, 111, 37] 0 5 :=
  (claim_C8_line_number.1 [10, 102, 111, 111, 37] ⟨0, 5, 2⟩ (by decide)).1

/-- C9: the record index is contiguous: the start offset of record `i+1`
equals the start offset plus length of record `i`, and the first record
starts at offset 0. -/
theorem claim_C9_contiguous :
    (∀ (src : List Nat) (i : Nat) (sp sp' : SeekPos),
      (entrySeekerNew src)[i]? = some sp →
      (entrySeekerNew src)[i + 1]? = some sp' →
      sp'.start_pos = sp.start_pos + sp.len) ∧
    (∀ (src : List Nat) (sp : SeekPos),
      (entrySeekerNew src)[0]? = some sp → sp.start_pos = 0) := by
  constructor
  · intro src i sp sp' h1 h2
    exact chainFrom_adjacent (scanInv_entrySeekerNew src).chain h1 h2
  · intro src sp h0
    exact chainFrom_head (scanInv_entrySeekerNew src).chain h0

/-- C9 witness: for the source `"a%b%"` the second record starts where
the first ends. -/
theorem claim_C9_witness :
    (⟨2, 2, 1⟩ : SeekPos).start_pos
      = (⟨0, 2, 1⟩ : SeekPos).start_pos + (⟨0, 2, 1⟩ : SeekPos).len :=
  claim_C9_contiguous.1 [97, 37, 98, 37] 0 ⟨0, 2, 1⟩ ⟨2, 2, 1⟩ (by decide) (by decide)

/-- C10: whenever the parser reaches the `Escape` state, the remembered
interrupted state exists and is a text or inside-reference state, so the
`panic!` branch and the empty-scanning fallback in `process_char` are
unreachable; consequently parsing never panics. -/
theorem claim_C10_escape_invariant :
    (∀ (chars : List Char) (p : EntryParser) (toks : List Token),
      parseLoop EntryParser.new chars = PResult.ok (p, toks) →
      p.state = ParseState.Escape →
        ∃ s, p.last_state = some (ParseState.Text s) ∨
          p.last_state = some (ParseState.InPath s)) ∧
    (∀ msg : List Char, parse_message msg ≠ PResult.panicked) := by
  have hnew : goodEscape EntryParser.new := by
    intro h
    simp [EntryParser.new] at h
  constructor
  · intro chars p toks h hst
    exact (parseLoop_good chars EntryParser.new hnew).1 p toks h hst
  · intro msg
    simp only [parse_message, parse]
    cases hl : parseLoop EntryParser.new msg with
    | ok v =>
        obtain ⟨p, toks⟩ := v
        cases hst : p.state <;> simp [hst]
    | error e => simp
    | panicked => exact absurd hl (parseLoop_good msg EntryParser.new hnew).2

/-- C10 witness: a message ending in a backslash does not panic (it
fails with `UnexpectedEnd`). -/
theorem claim_C10_witness : parse_message ['a', '\\'] ≠ PResult.panicked :=
  claim_C10_escape_invariant.2 ['a', '\\']
